import Mathlib

/-!
Verification development for the clique-claw status-document engine.

Shallow embedding of the TypeScript core:
  src/core/workflowParser.ts  (three-format workflow parsing and mutation)
  src/core/sprintParser.ts    (sprint epic/story parsing and mutation)
  src/core/pathValidation.ts  (workspace path containment)

YAML documents are modelled by the inductive value type `YVal`; the external
yaml library (a third-party dependency, not repository code) is treated as a
trusted producer of such values.  JavaScript regular-expression matching for
the four concrete mutation patterns is modelled by a small backtracking
matcher over token lists (`Tok`), with JavaScript semantics for the
character classes, multiline anchors and replacement templates that those
patterns use.
-/

namespace Clique

/-- A parsed YAML value, as produced by the yaml library and consumed by the
parsers.  `map` keeps document order of keys (JavaScript object insertion
order); `null` models both YAML null and JavaScript null. -/
inductive YVal where
  | null : YVal
  | bool (b : Bool) : YVal
  | num (n : Int) : YVal
  | str (s : String) : YVal
  | seq (l : List YVal) : YVal
  | map (l : List (String × YVal)) : YVal

/-- JavaScript truthiness of a value (null, false, 0, and the empty string
are falsy; arrays and objects are always truthy). -/
def vTruthy : YVal → Bool
  | .null => false
  | .bool b => b
  | .num n => n != 0
  | .str s => s != ""
  | .seq _ => true
  | .map _ => true

/-- Truthiness of an optional value; `none` models JavaScript undefined. -/
def oTruthy : Option YVal → Bool
  | none => false
  | some v => vTruthy v

/-- Property access `obj.key`: `none` (undefined) when the value is not an
object or lacks the key.  (JavaScript throws on property access of null;
callers guard that case explicitly.) -/
def yget : YVal → String → Option YVal
  | .map l, k => l.lookup k
  | _, _ => none

/-- JavaScript `a || b` for two possibly-undefined values. -/
def jsOr (a b : Option YVal) : Option YVal :=
  if oTruthy a then a else b

/-- JavaScript `a || d` with a defined default. -/
def jsOrV (a : Option YVal) (d : YVal) : YVal :=
  match a with
  | some v => if vTruthy v then v else d
  | none => d

/-- Is the value exactly the given string literal (JavaScript `=== "s"`). -/
def isStrEq (v : YVal) (s : String) : Bool :=
  match v with
  | .str t => t == s
  | _ => false

/-- Is the value null. -/
def isNull : YVal → Bool
  | .null => true
  | _ => false

/-- `Object.entries` of a value: field list for objects, index/element pairs
for arrays, index/character pairs for primitive strings, and empty for the
other primitives. -/
def yentries : YVal → List (String × YVal)
  | .map l => l
  | .seq l => (l.enum).map fun p => (Nat.repr p.1, p.2)
  | .str s => (s.data.enum).map fun p => (Nat.repr p.1, .str (String.mk [p.2]))
  | _ => []

/-! ### Inference tables (workflowParser.ts lines 24-77) -/

/-- Mapping of workflow IDs to phases (WORKFLOW_PHASE_MAP). -/
def WORKFLOW_PHASE_MAP : List (String × Int) :=
  [("brainstorm", 0), ("brainstorm-project", 0), ("research", 0), ("product-brief", 0),
   ("prd", 1), ("validate-prd", 1), ("ux-design", 1), ("create-ux-design", 1),
   ("architecture", 2), ("create-architecture", 2), ("epics-stories", 2),
   ("create-epics-and-stories", 2), ("test-design", 2), ("implementation-readiness", 2),
   ("sprint-planning", 3)]

/-- Mapping of workflow IDs to agents (WORKFLOW_AGENT_MAP). -/
def WORKFLOW_AGENT_MAP : List (String × String) :=
  [("brainstorm", "analyst"), ("brainstorm-project", "analyst"), ("research", "analyst"),
   ("product-brief", "analyst"), ("prd", "pm"), ("validate-prd", "pm"),
   ("ux-design", "ux-designer"), ("create-ux-design", "ux-designer"),
   ("architecture", "architect"), ("create-architecture", "architect"),
   ("epics-stories", "pm"), ("create-epics-and-stories", "pm"), ("test-design", "tea"),
   ("implementation-readiness", "architect"), ("sprint-planning", "sm")]

/-- `inferPhase`: phase from the table, defaulting to 1 (Planning). -/
def inferPhase (workflowId : String) : Int :=
  (WORKFLOW_PHASE_MAP.lookup workflowId).getD 1

/-- `inferAgent`: agent from the table, defaulting to "pm". -/
def inferAgent (workflowId : String) : String :=
  (WORKFLOW_AGENT_MAP.lookup workflowId).getD "pm"

/-- `inferCommand`: the source replaces every hyphen by a hyphen, i.e. the
identity transformation on the workflow ID. -/
def inferCommand (workflowId : String) : String :=
  String.mk (workflowId.data.map fun c => if c = '-' then '-' else c)

/-! ### Workflow data model (types.ts) -/

/-- One workflow item.  Every field holds the runtime JavaScript value;
`none` models an absent (undefined) field. -/
structure WorkflowItem where
  id : Option YVal
  phase : Option YVal
  status : Option YVal
  agent : Option YVal
  command : Option YVal
  note : Option YVal
  outputFile : Option YVal

/-- Project-level workflow document data. -/
structure WorkflowData where
  lastUpdated : YVal
  status : YVal
  statusNote : Option YVal
  project : YVal
  projectType : YVal
  selectedTrack : YVal
  fieldType : YVal
  workflowPath : YVal
  items : List WorkflowItem

/-! ### Sort order used by the Nested and Flat parsers -/

/-- Numeric phase of an item as used by the sort comparator
(`a.phase as number`; the two sorting parsers always set a numeric phase). -/
def phaseI (it : WorkflowItem) : Int :=
  match it.phase with
  | some (.num n) => n
  | _ => 0

/-- String id of an item as used by the sort comparator (the two sorting
parsers always set a string id). -/
def idS (it : WorkflowItem) : String :=
  match it.id with
  | some (.str s) => s
  | _ => ""

/-- The comparator of parseNewFormat / parseFlatFormat as a boolean order:
ascending phase, ties broken by id (`localeCompare`, modelled as code-point
order, which agrees with it on the ASCII identifiers these documents use). -/
def itemLEb (a b : WorkflowItem) : Bool :=
  if phaseI a < phaseI b then true
  else if phaseI b < phaseI a then false
  else decide (idS a ≤ idS b)

/-- The comparator as a relation, for use with the stable sort. -/
def itemRel (a b : WorkflowItem) : Prop := itemLEb a b = true

instance : DecidableRel itemRel := fun a b => by
  unfold itemRel; infer_instance

/-- Boolean check that a list of items is sorted by the comparator. -/
def itemsSortedB : List WorkflowItem → Bool
  | [] => true
  | [_] => true
  | a :: b :: t => itemLEb a b && itemsSortedB (b :: t)

/-! ### The three workflow parsers (workflowParser.ts lines 79-153) -/

/-- Status normalization of the Nested format (parseNewFormat lines 86-92):
`status || 'not_started'`, then `complete` with a truthy `output_file`
becomes that file value, and `not_started` becomes `required`. -/
def nestedStatus (data : YVal) : YVal :=
  let s0 := jsOrV (yget data "status") (.str "not_started")
  if isStrEq s0 "complete" && oTruthy (yget data "output_file") then
    (yget data "output_file").getD .null
  else if isStrEq s0 "not_started" then .str "required"
  else s0

/-- One item of the Nested format (body of the parseNewFormat loop). -/
def mkNestedItem (id : String) (data : YVal) : WorkflowItem :=
  { id := some (.str id)
    phase := some (.num (inferPhase id))
    status := some (nestedStatus data)
    agent := some (.str (inferAgent id))
    command := some (.str (inferCommand id))
    note := jsOr (yget data "notes") (yget data "note")
    outputFile := yget data "output_file" }

/-- parseNewFormat over the entries of the `workflows` object: build an item
per entry, then sort by phase then id. -/
def parseNewFormatItems (ws : List (String × YVal)) : List WorkflowItem :=
  List.insertionSort itemRel (ws.map fun e => mkNestedItem e.1 e.2)

/-- `isFilePath`: contains a slash or ends in a known document extension. -/
def isFilePath (value : String) : Bool :=
  value.data.contains '/' || ".md".data.isSuffixOf value.data ||
    ".yaml".data.isSuffixOf value.data || ".yml".data.isSuffixOf value.data ||
    ".json".data.isSuffixOf value.data || ".txt".data.isSuffixOf value.data

/-- One item of the Flat format (body of the parseFlatFormat loop), for a
string-valued status. -/
def mkFlatItem (id status : String) : WorkflowItem :=
  { id := some (.str id)
    phase := some (.num (inferPhase id))
    status := some (.str status)
    agent := some (.str (inferAgent id))
    command := some (.str (inferCommand id))
    note := none
    outputFile := if isFilePath status then some (.str status) else none }

/-- parseFlatFormat over the entries of the `workflow_status` object:
build an item per entry, then sort by phase then id. -/
def parseFlatFormatItems (ws : List (String × String)) : List WorkflowItem :=
  List.insertionSort itemRel (ws.map fun e => mkFlatItem e.1 e.2)

/-- The `workflow_status` array of the Legacy format (`|| []` for a falsy or
absent field; a truthy non-array would make `.map` throw and is outside the
modelled subset). -/
def legacyArray (y : YVal) : List YVal :=
  match yget y "workflow_status" with
  | some (.seq l) => l
  | _ => []

/-- parseOldFormat: fields taken verbatim from each array element; no
inference, no sort (workflowParser.ts lines 114-123). -/
def parseOldFormatItems (y : YVal) : List WorkflowItem :=
  (legacyArray y).map fun it =>
    { id := yget it "id"
      phase := yget it "phase"
      status := yget it "status"
      agent := yget it "agent"
      command := yget it "command"
      note := yget it "note"
      outputFile := none }

/-- Format detection plus dispatch (parseWorkflowStatus lines 170-186),
over an already-parsed YAML value.  An `Except.error` models an exception
reaching the surrounding catch block: property access on a null document,
or a non-string Flat status value (on which `isFilePath`, i.e.
`value.includes`, throws for the scalar and object values these documents
contain). -/
def buildWorkflowItems (y : YVal) : Except String (List WorkflowItem) :=
  match yget y "workflows" with
  | some (.map ws) =>
    if ws.any fun e => isNull e.2 then
      .error "TypeError: cannot read properties of null"
    else
      .ok (parseNewFormatItems ws)
  | _ =>
    match yget y "workflow_status" with
    | some (.map ws) =>
      if ws.all fun e => match e.2 with | .str _ => true | _ => false then
        .ok (parseFlatFormatItems (ws.map fun e =>
          (e.1, match e.2 with | .str s => s | _ => "")))
      else
        .error "TypeError: value.includes is not a function"
    | _ => .ok (parseOldFormatItems y)

/-- Full document construction from a parsed YAML value (the try block of
parseWorkflowStatus). -/
def buildWorkflowData (y : YVal) : Except String WorkflowData :=
  if isNull y then .error "TypeError: cannot read properties of null" else
  match buildWorkflowItems y with
  | .error m => .error m
  | .ok items =>
    .ok { lastUpdated := jsOrV (yget y "last_updated") (.str "")
          status := jsOrV (yget y "status") (.str "")
          statusNote := yget y "status_note"
          project := jsOrV (yget y "project") (jsOrV (yget y "project_name") (.str ""))
          projectType := jsOrV (yget y "project_type") (.str "")
          selectedTrack := jsOrV (yget y "selected_track") (.str "")
          fieldType := jsOrV (yget y "field_type") (.str "")
          workflowPath := jsOrV (yget y "workflow_path") (.str "")
          items := items }

/-! ### File-level control flow of the parsers

The surrounding file access is abstracted into the outcome the parser
observes: the workspace validator rejected the path, the file is missing, or
reading and YAML-parsing the file produced a value (or threw).  The second
component of the result is the module-level last-parse-error state after the
call (`getWorkflowParseError` / `getSprintParseError`), which the extension
displays to the user. -/

/-- Outcome of path validation plus file access for one parse call. -/
inductive FileAccess where
  | outsideWorkspace : FileAccess
  | missing : FileAccess
  | readYields (r : Except String YVal) : FileAccess

/-- The fixed message recorded when path validation rejects the file. -/
def pathValidationMsg : String := "Path validation failed: file outside workspace"

/-- parseWorkflowStatus (workflowParser.ts lines 155-206): result document
and last-parse-error state after the call. -/
def parseWorkflowStatusRun (a : FileAccess) : Option WorkflowData × Option String :=
  match a with
  | .outsideWorkspace => (none, some pathValidationMsg)
  | .missing => (none, none)
  | .readYields (.error m) => (none, some m)
  | .readYields (.ok y) =>
    match buildWorkflowData y with
    | .error m => (none, some m)
    | .ok d => (some d, none)

/-! ### Sprint data model and parser (sprintParser.ts) -/

/-- One story; `status` holds the runtime value of the YAML entry. -/
structure Story where
  id : String
  status : YVal
  epicId : String

/-- One epic with its owned stories. -/
structure Epic where
  id : String
  name : String
  status : YVal
  stories : List Story

/-- Sprint document data. -/
structure SprintData where
  project : YVal
  projectKey : YVal
  epics : List Epic

/-- Match of `/^epic-(\d+)$/`: the digit suffix when the key has exactly the
shape `epic-` followed by one or more digits. -/
def matchEpicNum (k : String) : Option String :=
  match k.data with
  | 'e' :: 'p' :: 'i' :: 'c' :: '-' :: rest =>
    if rest ≠ [] ∧ rest.all Char.isDigit then some (String.mk rest) else none
  | _ => none

/-- Match of the story-key pattern (anchored capture of one or more leading
digits followed by a hyphen): the maximal leading digit run when it is
nonempty and followed by a hyphen. -/
def matchStoryEpic (k : String) : Option String :=
  let ds := k.data.takeWhile Char.isDigit
  match k.data.drop ds.length with
  | '-' :: _ => if ds ≠ [] then some (String.mk ds) else none
  | _ => none

/-- Substring test: does `pat` occur contiguously in `s`. -/
def hasSubseg (pat : List Char) : List Char → Bool
  | [] => pat.isPrefixOf []
  | c :: r => pat.isPrefixOf (c :: r) || hasSubseg pat r

/-- JavaScript test key.includes of the literal retrospective. -/
def containsRetro (k : String) : Bool :=
  hasSubseg "retrospective".data k.data

/-- Lookup in the epic map (a `Map` keyed by the epic number string,
modelled as an association list in insertion order). -/
def lookupA : List (String × Epic) → String → Option Epic
  | [], _ => none
  | (k, v) :: t, n => if k = n then some v else lookupA t n

/-- `Map.set`: overwrite in place if the key exists, else append. -/
def upsertEpic (m : List (String × Epic)) (num : String) (e : Epic) :
    List (String × Epic) :=
  match m with
  | [] => [(num, e)]
  | (k, v) :: t => if k = num then (k, e) :: t else (k, v) :: upsertEpic t num e

/-- `epic.stories.push(s)` on the epic stored under `num` (no effect when the
key is absent, mirroring the `if (epic)` guard). -/
def addStory (m : List (String × Epic)) (num : String) (s : Story) :
    List (String × Epic) :=
  match m with
  | [] => []
  | (k, v) :: t =>
    if k = num then (k, { v with stories := v.stories ++ [s] }) :: t
    else (k, v) :: addStory t num s

/-- One step of the first pass: keys matching the epic pattern create (or
overwrite) the epic stored under their numeric suffix. -/
def sprintStep1 (m : List (String × Epic)) (e : String × YVal) :
    List (String × Epic) :=
  match matchEpicNum e.1 with
  | some n => upsertEpic m n ⟨e.1, "Epic " ++ n, e.2, []⟩
  | none => m

/-- First pass: collect epics (sprintParser.ts lines 51-62). -/
def sprintPass1 (entries : List (String × YVal)) : List (String × Epic) :=
  entries.foldl sprintStep1 []

/-- One step of the second pass: skip epic keys and retrospectives, then
append the story to its epic when the numeric prefix has one. -/
def sprintStep2 (m : List (String × Epic)) (e : String × YVal) :
    List (String × Epic) :=
  if (matchEpicNum e.1).isSome || containsRetro e.1 then m
  else
    match matchStoryEpic e.1 with
    | some n => addStory m n ⟨e.1, e.2, "epic-" ++ n⟩
    | none => m

/-- `parseInt` on the strings arising here (digit strings): numeric value of
the leading digit run after trimming whitespace and an optional sign. -/
def parseIntJS (s : String) : Int :=
  let t := s.data.dropWhile fun c => c = ' ' ∨ c = '\t' ∨ c = '\n' ∨ c = '\r'
  let digitsVal : List Char → Int := fun l =>
    Int.ofNat (l.foldl (fun a c => a * 10 + (c.toNat - 48)) 0)
  match t with
  | '-' :: r => - digitsVal (r.takeWhile Char.isDigit)
  | '+' :: r => digitsVal (r.takeWhile Char.isDigit)
  | _ => digitsVal (t.takeWhile Char.isDigit)

/-- Removal of the first occurrence of `pat` (JavaScript
`id.replace('epic-', '')`; epic ids contain the pattern exactly once). -/
def removeFirstOcc (s pat : List Char) : List Char :=
  match s with
  | [] => []
  | c :: r => if pat.isPrefixOf (c :: r) then (c :: r).drop pat.length
              else c :: removeFirstOcc r pat

/-- Sort key of an epic: `parseInt(id.replace('epic-', ''))`. -/
def epicNumOf (e : Epic) : Int :=
  parseIntJS (String.mk (removeFirstOcc e.id.data "epic-".data))

/-- The epic sort comparator as a relation. -/
def epicRel (a b : Epic) : Prop := epicNumOf a ≤ epicNumOf b

instance : DecidableRel epicRel := fun a b => by
  unfold epicRel; infer_instance

/-- Two-pass sprint parse over the `development_status` entries, epics
emitted sorted numerically (sprintParser.ts lines 48-92). -/
def parseSprintDev (entries : List (String × YVal)) : List Epic :=
  let m2 := entries.foldl sprintStep2 (sprintPass1 entries)
  List.insertionSort epicRel (m2.map fun p => p.2)

/-- Full sprint document from a parsed YAML value (try block of
parseSprintStatus). -/
def buildSprintData (y : YVal) : Except String SprintData :=
  if isNull y then .error "TypeError: cannot read properties of null" else
  .ok { project := jsOrV (yget y "project") (.str "Unknown")
        projectKey := jsOrV (yget y "project_key") (.str "")
        epics := parseSprintDev (yentries (jsOrV (yget y "development_status") (.map []))) }

/-- parseSprintStatus (sprintParser.ts lines 27-102): result document and
last-parse-error state after the call. -/
def parseSprintStatusRun (a : FileAccess) : Option SprintData × Option String :=
  match a with
  | .outsideWorkspace => (none, some pathValidationMsg)
  | .missing => (none, none)
  | .readYields (.error m) => (none, some m)
  | .readYields (.ok y) =>
    match buildSprintData y with
    | .error m => (none, some m)
    | .ok d => (some d, none)

/-! ### A backtracking matcher for the mutation patterns

The four mutation regexes are sequences of literals, character-class
quantifiers and one lazy any-character star, with a single capture group
that is a prefix of the whole match.  `matchToks` enumerates the
(consumed, rest) splits of a token list against an input in JavaScript
backtracking preference order (greedy: longest first; lazy: shortest
first); the leftmost-starting, first-in-preference-order match is the one
JavaScript replace uses. -/

/-- JavaScript regular-expression whitespace class (the WhiteSpace and
LineTerminator code points). -/
def jsWhiteB (c : Char) : Bool :=
  c = ' ' || c = '\t' || c = '\n' || c = '\r' || c = '\x0b' || c = '\x0c' ||
  c = '\u00A0' || c = '\u1680' || c = '\u2000' || c = '\u2001' || c = '\u2002' ||
  c = '\u2003' || c = '\u2004' || c = '\u2005' || c = '\u2006' || c = '\u2007' ||
  c = '\u2008' || c = '\u2009' || c = '\u200A' || c = '\u2028' || c = '\u2029' ||
  c = '\u202F' || c = '\u205F' || c = '\u3000' || c = '\uFEFF'

/-- The space-or-tab class. -/
def spaceTabB (c : Char) : Bool := c = ' ' || c = '\t'

/-- Single or double quote. -/
def quoteB (c : Char) : Bool := c = '"' || c = '\''

/-- One token of a mutation pattern. -/
inductive Tok where
  | lit (cs : List Char) : Tok
  | star (p : Char → Bool) : Tok
  | plus (p : Char → Bool) : Tok
  | opt (p : Char → Bool) : Tok
  | lazyStar (p : Char → Bool) : Tok

/-- Length of the maximal run of class characters at the head of the input. -/
def classRun (p : Char → Bool) (s : List Char) : Nat :=
  (s.takeWhile p).length

/-- Candidate consumption lengths of one token, in backtracking preference
order. -/
def tokLens : Tok → List Char → List Nat
  | .lit cs, s => if cs.isPrefixOf s then [cs.length] else []
  | .star p, s => (List.range (classRun p s + 1)).reverse
  | .plus p, s => ((List.range (classRun p s + 1)).reverse).dropLast
  | .opt p, s => if classRun p s = 0 then [0] else [1, 0]
  | .lazyStar p, s => List.range (classRun p s + 1)

/-- All (consumed, rest) splits of a token list against an input, in
backtracking preference order. -/
def matchToks : List Tok → List Char → List (List Char × List Char)
  | [], s => [([], s)]
  | t :: ts, s =>
    (tokLens t s).flatMap fun n =>
      (matchToks ts (s.drop n)).map fun pr => (s.take n ++ pr.1, pr.2)

/-- Every character a token can consume satisfies `q` (used to show that
the replaced span of a mutation contains no newline). -/
def TokOnly (q : Char → Prop) : Tok → Prop
  | .lit cs => ∀ c ∈ cs, q c
  | .star p => ∀ c, p c = true → q c
  | .plus p => ∀ c, p c = true → q c
  | .opt p => ∀ c, p c = true → q c
  | .lazyStar p => ∀ c, p c = true → q c

/-- First successful split of the input at this start position into
(group 1, rest of match, remainder). -/
def firstSplit (P1 P2 : List Tok) (s : List Char) :
    Option (List Char × List Char × List Char) :=
  ((matchToks P1 s).flatMap fun pr =>
    (matchToks P2 pr.2).map fun qr => (pr.1, qr.1, qr.2)).head?

/-- JavaScript multiline caret: start of input or right after a line
terminator. -/
def isBOL (pre : List Char) : Bool :=
  match pre.getLast? with
  | none => true
  | some c => c = '\n' || c = '\r' || c = '\u2028' || c = '\u2029'

/-- Scan start positions left to right (only beginning-of-line positions
when anchored) and return the consumed prefix together with the first
match's split. -/
def scanSplit (anch : Bool) (P1 P2 : List Tok) :
    List Char → List Char → Option (List Char × List Char × List Char × List Char)
  | pre, s =>
    match (if !anch || isBOL pre then firstSplit P1 P2 s else none) with
    | some (g1, g2, post) => some (pre, g1, g2, post)
    | none =>
      match s with
      | [] => none
      | c :: r => scanSplit anch P1 P2 (pre ++ [c]) r

/-- GetSubstitution of the replacement template (ECMA-262), for a pattern
with exactly one capture group: group 1 is `g1`, the whole match is
`g1 ++ g2`, the text before the match is `pre` and the text after is
`post`. -/
def substTemplate (g1 g2 pre post : List Char) : List Char → List Char
  | [] => []
  | ['$'] => ['$']
  | '$' :: '0' :: '1' :: r => g1 ++ substTemplate g1 g2 pre post r
  | '$' :: c :: r =>
    if c = '$' then '$' :: substTemplate g1 g2 pre post r
    else if c = '&' then g1 ++ g2 ++ substTemplate g1 g2 pre post r
    else if c = Char.ofNat 96 then pre ++ substTemplate g1 g2 pre post r
    else if c = '\'' then post ++ substTemplate g1 g2 pre post r
    else if c = '1' then g1 ++ substTemplate g1 g2 pre post r
    else if c = '0' then '$' :: c :: substTemplate g1 g2 pre post r
    else '$' :: substTemplate g1 g2 pre post (c :: r)
  | c :: r => c :: substTemplate g1 g2 pre post r

/-- Replace the first match of the two-part pattern with the expanded
template; `none` when the pattern has no match (the test fails). -/
def regexReplaceOne (anch : Bool) (P1 P2 : List Tok) (tmpl : List Char)
    (s : List Char) : Option (List Char) :=
  match scanSplit anch P1 P2 [] s with
  | none => none
  | some (pre, g1, g2, post) =>
    some (pre ++ substTemplate g1 g2 pre post tmpl ++ post)

/-! ### The four mutation strategies (workflowParser.ts lines 232-308,
sprintParser.ts lines 104-135)

`escapeRegex` makes the interpolated identifier entirely literal, so the
identifier appears below as a literal token.  Each function returns the
success flag plus the file content after the call: on a failed test the
original text is returned unchanged (no write happens). -/

/-- Pattern group 1 of the Nested update: caret, space-or-tab run, the id,
a colon, whitespace, a newline, space-or-tab run, the status key and
whitespace. -/
def nestedP1 (itemId : String) : List Tok :=
  [.star spaceTabB, .lit (itemId.data ++ [':']), .star jsWhiteB, .lit ['\n'],
   .star spaceTabB, .lit "status:".data, .star jsWhiteB]

/-- The replaced token of the Nested and sprint updates: one or more
non-whitespace characters. -/
def nonWhiteP2 : List Tok := [.plus fun c => !jsWhiteB c]

/-- Nested-format branch of updateWorkflowItemStatus. -/
def updateNested (content itemId newStatus : String) : Bool × String :=
  match regexReplaceOne true (nestedP1 itemId) nonWhiteP2
      ('$' :: '1' :: newStatus.data) content.data with
  | none => (false, content)
  | some out => (true, String.mk out)

/-- Pattern group 1 of the Flat update: caret, space-or-tab run, the id, a
colon and whitespace. -/
def flatP1 (itemId : String) : List Tok :=
  [.star spaceTabB, .lit (itemId.data ++ [':']), .star jsWhiteB]

/-- The replaced token of the Flat update: optional quote, one or more
characters that are not newline or quote, optional quote. -/
def flatP2 : List Tok :=
  [.opt quoteB, .plus (fun c => !(c = '\n' || quoteB c)), .opt quoteB]

/-- Quoting of the new Flat status when it contains a slash or colon. -/
def quoteFlat (newStatus : String) : List Char :=
  if newStatus.data.contains '/' || newStatus.data.contains ':' then
    '"' :: newStatus.data ++ ['"']
  else newStatus.data

/-- Flat-format branch of updateWorkflowItemStatus. -/
def updateFlat (content itemId newStatus : String) : Bool × String :=
  match regexReplaceOne true (flatP1 itemId) flatP2
      ('$' :: '1' :: quoteFlat newStatus) content.data with
  | none => (false, content)
  | some out => (true, String.mk out)

/-- Pattern group 1 of the Legacy update: the literal dash-id-colon-space,
optionally quoted id, a lazy any-character run, the status key and
whitespace.  The pattern is not anchored. -/
def legacyP1 (itemId : String) : List Tok :=
  [.lit "- id: ".data, .opt quoteB, .lit itemId.data, .opt quoteB,
   .lazyStar (fun _ => true), .lit "status:".data, .star jsWhiteB]

/-- The replaced token of the Legacy update: optional quote, one or more
characters that are neither whitespace nor quote, optional quote. -/
def legacyP2 : List Tok :=
  [.opt quoteB, .plus (fun c => !(jsWhiteB c || quoteB c)), .opt quoteB]

/-- Legacy-format branch of updateWorkflowItemStatus; the replacement is
always re-quoted. -/
def updateLegacy (content itemId newStatus : String) : Bool × String :=
  match regexReplaceOne false (legacyP1 itemId) legacyP2
      ('$' :: '1' :: '"' :: newStatus.data ++ ['"']) content.data with
  | none => (false, content)
  | some out => (true, String.mk out)

/-- The format branch taken by updateWorkflowItemStatus, as selected by the
same detection used for parsing. -/
inductive WFormat where
  | nested : WFormat
  | flat : WFormat
  | legacy : WFormat

/-- updateWorkflowItemStatus restricted to its text transformation: the
branch-specific pattern replace on the raw content. -/
def updateWorkflowItemStatus (fmt : WFormat) (content itemId newStatus : String) :
    Bool × String :=
  match fmt with
  | .nested => updateNested content itemId newStatus
  | .flat => updateFlat content itemId newStatus
  | .legacy => updateLegacy content itemId newStatus

/-- Pattern group 1 of the sprint story update: caret, whitespace run, the
story id, a colon and whitespace. -/
def storyP1 (storyId : String) : List Tok :=
  [.star jsWhiteB, .lit (storyId.data ++ [':']), .star jsWhiteB]

/-- updateStoryStatus restricted to its text transformation
(sprintParser.ts lines 116-129). -/
def updateStoryStatus (content storyId newStatus : String) : Bool × String :=
  match regexReplaceOne true (storyP1 storyId) nonWhiteP2
      ('$' :: '1' :: newStatus.data) content.data with
  | none => (false, content)
  | some out => (true, String.mk out)

/-- Does the format-specific pattern locate the identifier in the content
(the regex test that gates the write). -/
def hasUpdateMatch (anch : Bool) (P1 P2 : List Tok) (content : String) : Bool :=
  (scanSplit anch P1 P2 [] content.data).isSome

/-! ### Line decomposition, for the mutation-locality property -/

/-- Split a character list at a separator (a trailing separator yields a
final empty part, as a string split does). -/
def splitSep (sep : Char) : List Char → List (List Char)
  | [] => [[]]
  | c :: t =>
    if c = sep then [] :: splitSep sep t
    else
      match splitSep sep t with
      | [] => [[c]]
      | h :: r => (c :: h) :: r

/-- The lines of a text. -/
def linesOf (s : List Char) : List (List Char) := splitSep '\n' s

/-- The claimed mutation-locality property: the output has the same number
of lines as the input and every line except line `k` is unchanged. -/
def localExcept (inp out : String) (k : Nat) : Prop :=
  (linesOf out.data).length = (linesOf inp.data).length ∧
  ∀ i, i ≠ k → (linesOf out.data)[i]? = (linesOf inp.data)[i]?

/-! ### Path validation (pathValidation.ts) -/

/-- Join segments with a separator. -/
def joinSep (sep : Char) : List (List Char) → List Char
  | [] => []
  | [x] => x
  | x :: y :: r => x ++ sep :: joinSep sep (y :: r)

/-- Node path segment normalization: drop empty and dot segments, resolve
dot-dot against the stack (kept when ascending above a relative root,
dropped above an absolute root). -/
def normSegsAux (allowUp : Bool) : List (List Char) → List (List Char) → List (List Char)
  | acc, [] => acc.reverse
  | acc, seg :: rest =>
    if seg = [] ∨ seg = ['.'] then normSegsAux allowUp acc rest
    else if seg = ['.', '.'] then
      match acc with
      | top :: acc2 =>
        if top = ['.', '.'] then normSegsAux allowUp (seg :: top :: acc2) rest
        else normSegsAux allowUp acc2 rest
      | [] => if allowUp then normSegsAux allowUp [seg] rest
              else normSegsAux allowUp [] rest
    else normSegsAux allowUp (seg :: acc) rest

/-- Is the path absolute (POSIX). -/
def isAbsL (p : List Char) : Bool :=
  match p with
  | '/' :: _ => true
  | _ => false

/-- Node posix path.normalize on the characters of the path. -/
def pathNormalizeL (p : List Char) : List Char :=
  if p = [] then ['.'] else
  let abs := isAbsL p
  let trail := match p.getLast? with | some c => c == '/' | none => false
  let res := joinSep '/' (normSegsAux (!abs) [] (splitSep '/' p))
  if res = [] then (if abs then ['/'] else if trail then ['.', '/'] else ['.'])
  else
    let res2 := if trail then res ++ ['/'] else res
    if abs then '/' :: res2 else res2

/-- Node posix path.resolve of one argument against an absolute working
directory, on the characters of the paths. -/
def pathResolveL (cwd p : List Char) : List Char :=
  let combined := if isAbsL p then p else cwd ++ '/' :: p
  let abs := isAbsL combined
  let res := joinSep '/' (normSegsAux (!abs) [] (splitSep '/' combined))
  if abs then (if res = [] then ['/'] else '/' :: res)
  else (if res = [] then ['.'] else res)

/-- String wrappers for the two path functions. -/
def pathNormalize (p : String) : String := String.mk (pathNormalizeL p.data)

/-- Node posix path.resolve (string form). -/
def pathResolve (cwd p : String) : String := String.mk (pathResolveL cwd.data p.data)

/-- Case folding (toLowerCase; code-point-wise, which agrees with the
JavaScript function on the ASCII paths in scope). -/
def toLowerL (s : List Char) : List Char := s.map Char.toLower

/-- The file-system operations isInsideWorkspace performs.  existsSync never
throws; realpathSync may (modelled by the error case). -/
structure FSModel where
  existsSync : String → Bool
  realpathSync : String → Except Unit String

/-- The body of isInsideWorkspace before its catch block: resolve, resolve
symlinks for existing paths, normalize and case-fold, then compare. -/
def isInsideWorkspaceBody (fs : FSModel) (cwd filePath workspaceRoot : String) :
    Except Unit Bool := do
  let resolvedFile := pathResolve cwd filePath
  let resolvedRoot := pathResolve cwd workspaceRoot
  let realFilePath ← if fs.existsSync resolvedFile then fs.realpathSync resolvedFile
                     else Except.ok resolvedFile
  let realRootPath ← if fs.existsSync resolvedRoot then fs.realpathSync resolvedRoot
                     else Except.ok resolvedRoot
  let normalizedFile := toLowerL (pathNormalizeL realFilePath.data)
  let normalizedRoot := toLowerL (pathNormalizeL realRootPath.data)
  Except.ok ((normalizedRoot ++ ['/']).isPrefixOf normalizedFile ||
             normalizedFile == normalizedRoot)

/-- isInsideWorkspace (pathValidation.ts lines 9-36): the body with every
exception mapped to false by the catch block. -/
def isInsideWorkspace (fs : FSModel) (cwd filePath workspaceRoot : String) : Bool :=
  match isInsideWorkspaceBody fs cwd filePath workspaceRoot with
  | .ok b => b
  | .error _ => false

/-- The normalization pipeline applied to each of the two paths before the
comparison (resolve; realpath when the path exists; normalize; case-fold). -/
def normalizeForCompare (fs : FSModel) (cwd p : String) : Except Unit (List Char) := do
  let resolved := pathResolve cwd p
  let real ← if fs.existsSync resolved then fs.realpathSync resolved
             else Except.ok resolved
  Except.ok (toLowerL (pathNormalizeL real.data))

/-- A file system on which no path exists (so realpathSync is never
reached). -/
def noFS : FSModel := ⟨fun _ => false, fun _ => Except.error ()⟩

/-- A file system on which every path exists and realpathSync always
throws. -/
def errFS : FSModel := ⟨fun _ => true, fun _ => Except.error ()⟩

/-! ## Lemmas about the matcher -/

theorem mem_of_head_eq {α : Type} {l : List α} {a : α} (h : l.head? = some a) :
    a ∈ l := by
  cases l with
  | nil => simp at h
  | cons x t => simp at h; simp [h]

theorem matchToks_eq {ts : List Tok} :
    ∀ {s c r : List Char}, (c, r) ∈ matchToks ts s → c ++ r = s := by
  induction ts with
  | nil =>
    intro s c r h
    simp [matchToks] at h
    simp [h.1, h.2]
  | cons t ts ih =>
    intro s c r h
    simp only [matchToks, List.mem_flatMap, List.mem_map] at h
    obtain ⟨n, -, ⟨pr, hpr, heq⟩⟩ := h
    injection heq with h1 h2
    subst h1 h2
    have := ih hpr
    calc s.take n ++ pr.1 ++ pr.2 = s.take n ++ (pr.1 ++ pr.2) := by simp
    _ = s.take n ++ s.drop n := by rw [this]
    _ = s := List.take_append_drop n s

theorem tokLens_le {t : Tok} {s : List Char} {n : Nat} (h : n ∈ tokLens t s)
    {q : Char → Prop} (hq : TokOnly q t) : ∀ c ∈ s.take n, q c := by
  cases t with
  | lit cs =>
    simp only [tokLens] at h
    split at h
    · next hpre =>
      simp at h
      subst h
      have : cs <+: s := List.isPrefixOf_iff_prefix.mp hpre
      obtain ⟨u, hu⟩ := this
      rw [← hu, List.take_left]
      exact hq
    · simp at h
  | star p =>
    intro c hc
    simp only [tokLens, List.mem_reverse, List.mem_range] at h
    exact hq c (List.mem_takeWhile_imp (take_subset_takeWhile (Nat.lt_succ_iff.mp h) hc))
  | plus p =>
    intro c hc
    simp only [tokLens] at h
    have h2 := List.mem_of_mem_dropLast h
    simp only [List.mem_reverse, List.mem_range] at h2
    exact hq c (List.mem_takeWhile_imp (take_subset_takeWhile (Nat.lt_succ_iff.mp h2) hc))
  | opt p =>
    intro c hc
    simp only [tokLens] at h
    have hn : n ≤ classRun p s := by
      split at h <;> simp at h <;> omega
    exact hq c (List.mem_takeWhile_imp (take_subset_takeWhile hn hc))
  | lazyStar p =>
    intro c hc
    simp only [tokLens, List.mem_range] at h
    exact hq c (List.mem_takeWhile_imp (take_subset_takeWhile (Nat.lt_succ_iff.mp h) hc))
where
  take_subset_takeWhile {p : Char → Bool} {s : List Char} {n : Nat}
      (hn : n ≤ classRun p s) {c : Char} (hc : c ∈ s.take n) :
      c ∈ s.takeWhile p := by
    obtain ⟨u, hu⟩ := List.takeWhile_prefix (l := s) p
    have : s.take n = (s.takeWhile p).take n := by
      conv_lhs => rw [← hu]
      exact List.take_append_of_le_length hn
    rw [this] at hc
    exact List.take_subset n _ hc

theorem matchToks_only {q : Char → Prop} :
    ∀ {ts : List Tok}, (∀ t ∈ ts, TokOnly q t) →
    ∀ {s c r : List Char}, (c, r) ∈ matchToks ts s → ∀ ch ∈ c, q ch := by
  intro ts
  induction ts with
  | nil =>
    intro _ s c r h
    simp [matchToks] at h
    simp [h.1]
  | cons t ts ih =>
    intro hts s c r h
    simp only [matchToks, List.mem_flatMap, List.mem_map] at h
    obtain ⟨n, hn, ⟨pr, hpr, heq⟩⟩ := h
    injection heq with h1 h2
    intro ch hch
    rw [← h1] at hch
    rcases List.mem_append.mp hch with hch | hch
    · exact tokLens_le hn (hts t (by simp)) ch hch
    · exact ih (fun u hu => hts u (by simp [hu])) hpr ch hch

theorem firstSplit_sound {P1 P2 : List Tok} {s g1 g2 post : List Char}
    (h : firstSplit P1 P2 s = some (g1, g2, post)) :
    s = g1 ++ g2 ++ post ∧ ∃ r1, (g2, post) ∈ matchToks P2 r1 := by
  have hmem := mem_of_head_eq h
  simp only [List.mem_flatMap, List.mem_map] at hmem
  obtain ⟨pr, hpr, qr, hqr, heq⟩ := hmem
  have e1 : pr.1 = g1 := congrArg (fun x => x.1) heq
  have e2 : qr.1 = g2 := congrArg (fun x => x.2.1) heq
  have e3 : qr.2 = post := congrArg (fun x => x.2.2) heq
  have hp : pr.1 ++ pr.2 = s := matchToks_eq (by simpa using hpr)
  have hq : qr.1 ++ qr.2 = pr.2 := matchToks_eq (by simpa using hqr)
  constructor
  · rw [← hp, ← hq, e1, e2, e3, List.append_assoc]
  · exact ⟨pr.2, by rw [← e2, ← e3]; simpa using hqr⟩

theorem scanSplit_sound {anch : Bool} {P1 P2 : List Tok} :
    ∀ {s pre pre2 g1 g2 post : List Char},
    scanSplit anch P1 P2 pre s = some (pre2, g1, g2, post) →
    pre2 ++ g1 ++ g2 ++ post = pre ++ s ∧ ∃ r1, (g2, post) ∈ matchToks P2 r1 := by
  intro s
  induction s with
  | nil =>
    intro pre pre2 g1 g2 post h
    rw [scanSplit] at h
    rcases hfs : (if !anch || isBOL pre then firstSplit P1 P2 ([] : List Char) else none)
      with _ | ⟨a, b, c⟩
    · rw [hfs] at h; simp at h
    · rw [hfs] at h
      simp only [Option.some.injEq, Prod.mk.injEq] at h
      obtain ⟨hp, h1, h2, h3⟩ := h
      subst hp h1 h2 h3
      split at hfs
      · have := firstSplit_sound hfs
        refine ⟨?_, this.2⟩
        rw [this.1]
        simp [List.append_assoc]
      · simp at hfs
  | cons c r ih =>
    intro pre pre2 g1 g2 post h
    rw [scanSplit] at h
    rcases hfs : (if !anch || isBOL pre then firstSplit P1 P2 (c :: r) else none)
      with _ | ⟨a, b, d⟩
    · rw [hfs] at h
      obtain ⟨h1, h2⟩ := ih h
      refine ⟨?_, h2⟩
      rw [h1]
      simp
    · rw [hfs] at h
      simp only [Option.some.injEq, Prod.mk.injEq] at h
      obtain ⟨hp, h1, h2, h3⟩ := h
      subst hp h1 h2 h3
      split at hfs
      · have := firstSplit_sound hfs
        refine ⟨?_, this.2⟩
        rw [this.1]
        simp [List.append_assoc]
      · simp at hfs

/-! ## Lemmas about line decomposition -/

theorem splitSep_ne_nil (sep : Char) (l : List Char) : splitSep sep l ≠ [] := by
  cases l with
  | nil => simp [splitSep]
  | cons c t =>
    rw [splitSep]
    split
    · simp
    · split <;> simp

theorem splitSep_cons_sep (sep : Char) (t : List Char) :
    splitSep sep (sep :: t) = [] :: splitSep sep t := by
  rw [splitSep, if_pos rfl]

theorem splitSep_cons_ne {sep c : Char} (hc : c ≠ sep) {t h : List Char}
    {r : List (List Char)} (ht : splitSep sep t = h :: r) :
    splitSep sep (c :: t) = (c :: h) :: r := by
  rw [splitSep, if_neg hc, ht]

theorem splitSep_sepFree_append {sep : Char} {x : List Char}
    (hx : ∀ c ∈ x, c ≠ sep) :
    ∀ {b h : List Char} {t : List (List Char)},
    splitSep sep b = h :: t → splitSep sep (x ++ b) = (x ++ h) :: t := by
  induction x with
  | nil => intro b h t hb; simpa using hb
  | cons c x ih =>
    intro b h t hb
    have hc : c ≠ sep := hx c (by simp)
    have h2 := ih (fun d hd => hx d (by simp [hd])) hb
    rw [List.cons_append, splitSep_cons_ne hc h2]
    simp

theorem splitSep_replace (sep : Char) {x y : List Char}
    (hx : ∀ c ∈ x, c ≠ sep) (hy : ∀ c ∈ y, c ≠ sep) :
    ∀ (a b : List Char),
    (splitSep sep (a ++ x ++ b)).length = (splitSep sep (a ++ y ++ b)).length ∧
    ∀ i, i ≠ a.count sep →
      (splitSep sep (a ++ x ++ b))[i]? = (splitSep sep (a ++ y ++ b))[i]? := by
  intro a
  induction a with
  | nil =>
    intro b
    rcases hb : splitSep sep b with _ | ⟨h, t⟩
    · exact absurd hb (splitSep_ne_nil sep b)
    · have e1 := splitSep_sepFree_append hx hb
      have e2 := splitSep_sepFree_append hy hb
      simp only [List.nil_append]
      rw [e1, e2]
      refine ⟨by simp, ?_⟩
      intro i hi
      simp only [List.count_nil] at hi
      match i with
      | 0 => exact absurd rfl hi
      | j + 1 => simp
  | cons c a ih =>
    intro b
    obtain ⟨hlen, hidx⟩ := ih b
    have ex : (c :: a) ++ x ++ b = c :: (a ++ x ++ b) := by simp
    have ey : (c :: a) ++ y ++ b = c :: (a ++ y ++ b) := by simp
    by_cases hc : c = sep
    · subst hc
      rw [ex, ey, splitSep_cons_sep, splitSep_cons_sep]
      refine ⟨by rw [List.length_cons, List.length_cons, hlen], ?_⟩
      intro i hi
      simp only [List.count_cons_self] at hi
      match i with
      | 0 => simp
      | j + 1 =>
        simp only [List.getElem?_cons_succ]
        exact hidx j (by omega)
    · rcases h1 : splitSep sep (a ++ x ++ b) with _ | ⟨hx1, tx⟩
      · exact absurd h1 (splitSep_ne_nil sep _)
      rcases h2 : splitSep sep (a ++ y ++ b) with _ | ⟨hy1, ty⟩
      · exact absurd h2 (splitSep_ne_nil sep _)
      rw [ex, ey, splitSep_cons_ne hc h1, splitSep_cons_ne hc h2]
      rw [h1, h2] at hlen
      refine ⟨by simpa using hlen, ?_⟩
      intro i hi
      have hcount : (c :: a).count sep = a.count sep := by
        simp [List.count_cons, hc]
      rw [hcount] at hi
      match i with
      | 0 =>
        have h0 := hidx 0 hi
        rw [h1, h2] at h0
        simp only [List.getElem?_cons_zero, Option.some.injEq] at h0
        simp [h0]
      | j + 1 =>
        have hj := hidx (j + 1) hi
        rw [h1, h2] at hj
        simpa using hj

/-! ## Lemmas about the replacement template -/

theorem substTemplate_no_dollar {g1 g2 pre post : List Char} :
    ∀ {t : List Char}, (∀ c ∈ t, c ≠ '$') →
    substTemplate g1 g2 pre post t = t := by
  intro t
  induction t with
  | nil => intro _; rfl
  | cons c r ih =>
    intro h
    have hc : c ≠ '$' := h c (by simp)
    have hr := ih fun d hd => h d (by simp [hd])
    simp [substTemplate, hc, hr]

theorem substTemplate_dollar_one {g1 g2 pre post rest : List Char}
    (h : ∀ c ∈ rest, c ≠ '$') :
    substTemplate g1 g2 pre post ('$' :: '1' :: rest) = g1 ++ rest := by
  have h2 : substTemplate g1 g2 pre post rest = rest := substTemplate_no_dollar h
  simp [substTemplate, h2]

/-! ## The generic mutation-locality lemma -/

theorem nonWhiteP2_nl : ∀ t ∈ nonWhiteP2, TokOnly (fun c => c ≠ '\n') t := by
  intro t ht
  simp only [nonWhiteP2, List.mem_singleton] at ht
  subst ht
  intro c hc hceq
  subst hceq
  exact absurd hc (by decide)

theorem flatP2_nl : ∀ t ∈ flatP2, TokOnly (fun c => c ≠ '\n') t := by
  intro t ht
  simp only [flatP2, List.mem_cons, List.mem_singleton, List.not_mem_nil,
    or_false] at ht
  rcases ht with ht | ht | ht <;> subst ht <;>
    exact fun c hc hceq => by subst hceq; exact absurd hc (by decide)

theorem legacyP2_nl : ∀ t ∈ legacyP2, TokOnly (fun c => c ≠ '\n') t := by
  intro t ht
  simp only [legacyP2, List.mem_cons, List.mem_singleton, List.not_mem_nil,
    or_false] at ht
  rcases ht with ht | ht | ht <;> subst ht <;>
    exact fun c hc hceq => by subst hceq; exact absurd hc (by decide)

theorem regexReplace_local {anch : Bool} {P1 P2 : List Tok}
    (hP2 : ∀ t ∈ P2, TokOnly (fun c => c ≠ '\n') t)
    {content : String} {rest o : List Char}
    (hd : ∀ c ∈ rest, c ≠ '$') (hn : ∀ c ∈ rest, c ≠ '\n')
    (h : regexReplaceOne anch P1 P2 ('$' :: '1' :: rest) content.data = some o) :
    ∃ k, localExcept content (String.mk o) k := by
  unfold regexReplaceOne at h
  rcases hs : scanSplit anch P1 P2 [] content.data with _ | ⟨pre, g1, g2, post⟩
  · rw [hs] at h; simp at h
  · rw [hs] at h
    simp only [Option.some.injEq] at h
    obtain ⟨hin, r1, hg2⟩ := scanSplit_sound hs
    simp only [List.nil_append] at hin
    have hg2nl : ∀ c ∈ g2, c ≠ '\n' := matchToks_only hP2 hg2
    rw [substTemplate_dollar_one hd] at h
    have e1 : content.data = (pre ++ g1) ++ g2 ++ post := by
      rw [← hin]; try simp [List.append_assoc]
    have e2 : o = (pre ++ g1) ++ rest ++ post := by
      rw [← h]; try simp [List.append_assoc]
    obtain ⟨hlen, hidx⟩ := splitSep_replace '\n' hg2nl hn (pre ++ g1) post
    refine ⟨(pre ++ g1).count '\n', ?_, ?_⟩
    · show (linesOf (String.mk o).data).length = (linesOf content.data).length
      rw [show (String.mk o).data = o from rfl, e1, e2]
      unfold linesOf
      exact hlen.symm
    · intro i hi
      rw [show (String.mk o).data = o from rfl, e1, e2]
      unfold linesOf
      exact (hidx i hi).symm

theorem quoted_chars {st : String} {q : List Char}
    (hd : ∀ c ∈ st.data, c ≠ '$') (hn : ∀ c ∈ st.data, c ≠ '\n')
    (hq : q = '"' :: st.data ++ ['"'] ∨ q = st.data) :
    (∀ c ∈ q, c ≠ '$') ∧ (∀ c ∈ q, c ≠ '\n') := by
  rcases hq with hq | hq <;> subst hq
  · have key : ∀ c ∈ ('"' :: st.data ++ ['"']), c = '"' ∨ c ∈ st.data := by
      intro c hc
      rcases List.mem_cons.mp hc with h | h
      · exact Or.inl h
      · rcases List.mem_append.mp h with h | h
        · exact Or.inr h
        · simp at h; exact Or.inl h
    constructor <;> intro c hc <;> rcases key c hc with h | h
    · subst h; decide
    · exact hd c h
    · subst h; decide
    · exact hn c h
  · exact ⟨hd, hn⟩

theorem quoteFlat_chars {st : String}
    (hd : ∀ c ∈ st.data, c ≠ '$') (hn : ∀ c ∈ st.data, c ≠ '\n') :
    (∀ c ∈ quoteFlat st, c ≠ '$') ∧ (∀ c ∈ quoteFlat st, c ≠ '\n') := by
  unfold quoteFlat
  split
  · exact quoted_chars hd hn (Or.inl rfl)
  · exact quoted_chars hd hn (Or.inr rfl)

/-! ## Claim theorems -/

/-- C1: mutation locality.  The claim as frozen is false: a new status
containing a newline, or a dollar-sign replacement pattern, changes more
than the status line.  Two concrete refutations: a sprint story update with
a newline in the status changes the line count, and a Flat update whose new
status is a dollar-backquote pattern splices the preceding text into the
file. -/
theorem C1_counterexample :
    (updateStoryStatus "a: x\nz: y" "a" "b\nc" = (true, "a: b\nc\nz: y") ∧
     ∀ k, ¬ localExcept "a: x\nz: y" "a: b\nc\nz: y" k) ∧
    (updateFlat "a: x\nb: y" "b" "$\x60" = (true, "a: x\nb: a: x\n") ∧
     ∀ k, ¬ localExcept "a: x\nb: y" "a: x\nb: a: x\n" k) := by
  refine ⟨⟨by decide, ?_⟩, ⟨by decide, ?_⟩⟩ <;>
    exact fun k h => absurd h.1 (by decide)

/-- C1 (amended): for a newline-free, dollar-free new status, every
successful update in each of the three workflow branches and for sprint
stories leaves every line except the one holding the status value
byte-identical; in particular the trailing comment of the sprint scenario is
preserved. -/
theorem C1_mutation_locality (content itemId newStatus out : String)
    (hn : ∀ c ∈ newStatus.data, c ≠ '\n') (hd : ∀ c ∈ newStatus.data, c ≠ '$') :
    ((updateNested content itemId newStatus = (true, out) →
        ∃ k, localExcept content out k) ∧
     (updateFlat content itemId newStatus = (true, out) →
        ∃ k, localExcept content out k) ∧
     (updateLegacy content itemId newStatus = (true, out) →
        ∃ k, localExcept content out k) ∧
     (updateStoryStatus content itemId newStatus = (true, out) →
        ∃ k, localExcept content out k)) ∧
    updateStoryStatus "  1-1-login: backlog  # needs design" "1-1-login" "done"
      = (true, "  1-1-login: done  # needs design") := by
  refine ⟨⟨?_, ?_, ?_, ?_⟩, by decide⟩
  · intro h
    unfold updateNested at h
    rcases hr : regexReplaceOne true (nestedP1 itemId) nonWhiteP2
        ('$' :: '1' :: newStatus.data) content.data with _ | o
    · rw [hr] at h; simp at h
    · rw [hr] at h
      simp only [Prod.mk.injEq, true_and] at h
      rw [← h]
      exact regexReplace_local nonWhiteP2_nl hd hn hr
  · intro h
    unfold updateFlat at h
    rcases hr : regexReplaceOne true (flatP1 itemId) flatP2
        ('$' :: '1' :: quoteFlat newStatus) content.data with _ | o
    · rw [hr] at h; simp at h
    · rw [hr] at h
      simp only [Prod.mk.injEq, true_and] at h
      rw [← h]
      obtain ⟨hd2, hn2⟩ := quoteFlat_chars hd hn
      exact regexReplace_local flatP2_nl hd2 hn2 hr
  · intro h
    unfold updateLegacy at h
    rcases hr : regexReplaceOne false (legacyP1 itemId) legacyP2
        ('$' :: '1' :: '"' :: newStatus.data ++ ['"']) content.data with _ | o
    · rw [hr] at h; simp at h
    · rw [hr] at h
      simp only [Prod.mk.injEq, true_and] at h
      rw [← h]
      obtain ⟨hd2, hn2⟩ := quoted_chars hd hn (Or.inl rfl)
      exact regexReplace_local legacyP2_nl hd2 hn2 hr
  · intro h
    unfold updateStoryStatus at h
    rcases hr : regexReplaceOne true (storyP1 itemId) nonWhiteP2
        ('$' :: '1' :: newStatus.data) content.data with _ | o
    · rw [hr] at h; simp at h
    · rw [hr] at h
      simp only [Prod.mk.injEq, true_and] at h
      rw [← h]
      exact regexReplace_local nonWhiteP2_nl hd hn hr

/-- C1 witness: the amended theorem applied to the sprint scenario input. -/
theorem C1_mutation_locality_witness :
    ∃ k, localExcept "  1-1-login: backlog  # needs design"
      "  1-1-login: done  # needs design" k :=
  ((C1_mutation_locality "  1-1-login: backlog  # needs design" "1-1-login"
      "done" "  1-1-login: done  # needs design" (by decide) (by decide)).1.2.2.2)
    (by decide)

/-- C2: NotFound atomicity.  When the format-specific pattern cannot locate
the identifier, each of the three updateWorkflowItemStatus branches and
updateStoryStatus returns false and the file content after the call is the
original text (no write happens). -/
theorem C2_notfound_atomicity (content itemId newStatus : String) :
    (hasUpdateMatch true (nestedP1 itemId) nonWhiteP2 content = false →
       updateNested content itemId newStatus = (false, content)) ∧
    (hasUpdateMatch true (flatP1 itemId) flatP2 content = false →
       updateFlat content itemId newStatus = (false, content)) ∧
    (hasUpdateMatch false (legacyP1 itemId) legacyP2 content = false →
       updateLegacy content itemId newStatus = (false, content)) ∧
    (hasUpdateMatch true (storyP1 itemId) nonWhiteP2 content = false →
       updateStoryStatus content itemId newStatus = (false, content)) := by
  refine ⟨?_, ?_, ?_, ?_⟩ <;> intro h <;>
    [unfold updateNested; unfold updateFlat; unfold updateLegacy;
     unfold updateStoryStatus] <;>
    unfold hasUpdateMatch at h <;>
    unfold regexReplaceOne <;>
    rcases hs : scanSplit _ _ _ [] content.data with _ | v <;>
    first
    | rfl
    | (rw [hs] at h; simp at h)

/-- C2 witness: a text without the identifier is returned unchanged with a
false flag by all four updaters. -/
theorem C2_notfound_atomicity_witness :
    updateNested "hello world" "prd" "done" = (false, "hello world") ∧
    updateFlat "hello world" "prd" "done" = (false, "hello world") ∧
    updateLegacy "hello world" "prd" "done" = (false, "hello world") ∧
    updateStoryStatus "hello world" "prd" "done" = (false, "hello world") :=
  ⟨(C2_notfound_atomicity "hello world" "prd" "done").1 (by decide),
   (C2_notfound_atomicity "hello world" "prd" "done").2.1 (by decide),
   (C2_notfound_atomicity "hello world" "prd" "done").2.2.1 (by decide),
   (C2_notfound_atomicity "hello world" "prd" "done").2.2.2 (by decide)⟩

/-- C8: outside-workspace equivalence to absence.  The claim as frozen is
false: both cases return the no-document sentinel, but the outside-workspace
case records a parse-error message (which the extension displays) while the
missing-file case clears it, so the two outcomes are distinguishable. -/
theorem C8_counterexample :
    parseWorkflowStatusRun .outsideWorkspace ≠ parseWorkflowStatusRun .missing ∧
    parseSprintStatusRun .outsideWorkspace ≠ parseSprintStatusRun .missing := by
  constructor <;> intro h <;>
    have h2 := congrArg Prod.snd h <;>
    simp [parseWorkflowStatusRun, parseSprintStatusRun, pathValidationMsg] at h2

/-- C8 (amended): a path rejected by the workspace validator yields the same
no-document sentinel as a missing file, but additionally records the fixed
error message (which names no path), whereas absence clears the error
state. -/
theorem C8_outside_workspace_sentinel :
    (parseWorkflowStatusRun .outsideWorkspace).1 = none ∧
    (parseWorkflowStatusRun .missing).1 = none ∧
    (parseWorkflowStatusRun .outsideWorkspace).2 = some pathValidationMsg ∧
    (parseWorkflowStatusRun .missing).2 = none ∧
    (parseSprintStatusRun .outsideWorkspace).1 = none ∧
    (parseSprintStatusRun .missing).1 = none ∧
    (parseSprintStatusRun .outsideWorkspace).2 = some pathValidationMsg ∧
    (parseSprintStatusRun .missing).2 = none :=
  ⟨rfl, rfl, rfl, rfl, rfl, rfl, rfl, rfl⟩

/-- C9: validator totality.  isInsideWorkspace always returns a boolean, and
an exception in its body (the only fallible operation is realpathSync) is
mapped to false by the catch block. -/
theorem C9_validator_totality (fs : FSModel) (cwd f r : String) :
    (isInsideWorkspace fs cwd f r = true ∨ isInsideWorkspace fs cwd f r = false) ∧
    (isInsideWorkspaceBody fs cwd f r = .error () →
       isInsideWorkspace fs cwd f r = false) := by
  constructor
  · cases h : isInsideWorkspace fs cwd f r
    · exact Or.inr rfl
    · exact Or.inl rfl
  · intro h
    unfold isInsideWorkspace
    rw [h]

/-- C9 witness: on a file system whose realpathSync always throws, the
validator returns false. -/
theorem C9_validator_totality_witness :
    isInsideWorkspace errFS "/" "/ws/a" "/ws" = false :=
  (C9_validator_totality errFS "/" "/ws/a" "/ws").2 rfl

/-- C10: a Nested entry whose mapping has no status field parses to status
"required" (absent status is defaulted to not_started and then rewritten). -/
theorem C10_missing_status_defaults (id : String) (m : List (String × YVal))
    (h : m.lookup "status" = none) :
    (mkNestedItem id (.map m)).status = some (.str "required") := by
  simp [mkNestedItem, nestedStatus, yget, h, jsOrV, isStrEq]

/-- C10 witness: the empty mapping has no status field and yields
"required". -/
theorem C10_missing_status_defaults_witness :
    (mkNestedItem "x" (.map [])).status = some (.str "required") :=
  C10_missing_status_defaults "x" [] rfl

/-- C6: Nested-format status normalization: complete plus a present (truthy)
output_file becomes that file value; not_started becomes required; and the
scenario document with one prd entry parses to one item with status
required, phase 1 and agent pm. -/
theorem C6_nested_status_normalization :
    (∀ (id : String) (data f : YVal),
       yget data "status" = some (.str "complete") →
       yget data "output_file" = some f → vTruthy f = true →
       (mkNestedItem id data).status = some f) ∧
    (∀ (id : String) (data : YVal),
       yget data "status" = some (.str "not_started") →
       (mkNestedItem id data).status = some (.str "required")) ∧
    buildWorkflowItems
        (.map [("workflows", .map [("prd", .map [("status", .str "not_started")])])])
      = .ok [{ id := some (.str "prd"), phase := some (.num 1),
               status := some (.str "required"), agent := some (.str "pm"),
               command := some (.str "prd"), note := none, outputFile := none }] := by
  refine ⟨?_, ?_, rfl⟩
  · intro id data f h1 h2 h3
    have key : nestedStatus data = f := by
      simp only [nestedStatus]
      rw [h1, h2]
      rw [show (isStrEq (jsOrV (some (YVal.str "complete")) (YVal.str "not_started"))
            "complete" && oTruthy (some f)) = true from by
          have hc : vTruthy (YVal.str "complete") = true := rfl
          simp [jsOrV, isStrEq, oTruthy, hc, h3]]
      simp
    simp [mkNestedItem, key]
  · intro id data h1
    simp [mkNestedItem, nestedStatus, h1, jsOrV, isStrEq]

/-- C6 witness: the first conjunct applied to a complete entry with an
output file, and the second to a not_started entry. -/
theorem C6_nested_status_normalization_witness :
    (mkNestedItem "prd"
        (.map [("status", .str "complete"), ("output_file", .str "docs/prd.md")])).status
      = some (.str "docs/prd.md") ∧
    (mkNestedItem "prd" (.map [("status", .str "not_started")])).status
      = some (.str "required") :=
  ⟨C6_nested_status_normalization.1 "prd" _ _ rfl rfl rfl,
   C6_nested_status_normalization.2.1 "prd" _ rfl⟩

/-- C5: inference in all formats.  The claim as frozen is false: the Legacy
parser takes fields verbatim and fills nothing, so a legacy entry for the
known id prd that omits agent parses with no agent instead of the table
value pm. -/
theorem C5_counterexample :
    (parseOldFormatItems
        (.map [("workflow_status",
           .seq [.map [("id", .str "prd"), ("status", .str "required")]])])).map
      WorkflowItem.agent = [none] ∧
    inferAgent "prd" = "pm" ∧
    (none : Option YVal) ≠ some (.str (inferAgent "prd")) := by
  refine ⟨rfl, rfl, by simp⟩

/-- C5 (amended): in the Nested and Flat formats agent, command and phase
are always supplied from the static inference tables keyed by id (the
document cannot override them), so the two formats agree on those fields for
every id; unrecognized ids default to phase 1 and agent pm.  The Legacy
format copies fields verbatim and applies no inference. -/
theorem C5_inference (id : String) (data : YVal) (status : String) :
    ((mkNestedItem id data).agent = some (.str (inferAgent id)) ∧
     (mkNestedItem id data).command = some (.str (inferCommand id)) ∧
     (mkNestedItem id data).phase = some (.num (inferPhase id))) ∧
    ((mkFlatItem id status).agent = some (.str (inferAgent id)) ∧
     (mkFlatItem id status).command = some (.str (inferCommand id)) ∧
     (mkFlatItem id status).phase = some (.num (inferPhase id))) ∧
    ((mkNestedItem id data).agent = (mkFlatItem id status).agent ∧
     (mkNestedItem id data).command = (mkFlatItem id status).command ∧
     (mkNestedItem id data).phase = (mkFlatItem id status).phase) ∧
    (WORKFLOW_AGENT_MAP.lookup id = none → inferAgent id = "pm") ∧
    (WORKFLOW_PHASE_MAP.lookup id = none → inferPhase id = 1) := by
  refine ⟨⟨rfl, rfl, rfl⟩, ⟨rfl, rfl, rfl⟩, ⟨rfl, rfl, rfl⟩, ?_, ?_⟩
  · intro h; simp [inferAgent, h]
  · intro h; simp [inferPhase, h]

/-- C5 witness: the amended theorem at an id absent from the tables. -/
theorem C5_inference_witness :
    inferAgent "mystery-workflow" = "pm" ∧ inferPhase "mystery-workflow" = 1 :=
  ⟨(C5_inference "mystery-workflow" .null "x").2.2.2.1 (by decide),
   (C5_inference "mystery-workflow" .null "x").2.2.2.2 (by decide)⟩

theorem itemLEb_iff (x y : WorkflowItem) :
    itemLEb x y = true ↔
      (phaseI x < phaseI y ∨ (phaseI x = phaseI y ∧ idS x ≤ idS y)) := by
  unfold itemLEb
  split
  · next h1 => simp only [true_iff]; exact Or.inl h1
  · next h1 =>
    split
    · next h2 =>
      simp only [Bool.false_eq_true, false_iff]
      rintro (h | ⟨he, -⟩)
      · exact h1 h
      · omega
    · next h2 =>
      rw [decide_eq_true_iff]
      constructor
      · intro hle
        exact Or.inr ⟨by omega, hle⟩
      · rintro (h | ⟨-, hle⟩)
        · exact absurd h h1
        · exact hle

theorem itemRel_total (a b : WorkflowItem) : itemRel a b ∨ itemRel b a := by
  unfold itemRel
  rw [itemLEb_iff, itemLEb_iff]
  rcases lt_trichotomy (phaseI a) (phaseI b) with h | h | h
  · exact Or.inl (Or.inl h)
  · rcases le_total (idS a) (idS b) with hle | hle
    · exact Or.inl (Or.inr ⟨h, hle⟩)
    · exact Or.inr (Or.inr ⟨h.symm, hle⟩)
  · exact Or.inr (Or.inl h)

theorem itemRel_trans (a b c : WorkflowItem) :
    itemRel a b → itemRel b c → itemRel a c := by
  unfold itemRel
  rw [itemLEb_iff, itemLEb_iff, itemLEb_iff]
  rintro (h1 | ⟨h1, hl1⟩) (h2 | ⟨h2, hl2⟩)
  · exact Or.inl (by omega)
  · exact Or.inl (by omega)
  · exact Or.inl (by omega)
  · exact Or.inr ⟨by omega, le_trans hl1 hl2⟩

theorem itemsSortedB_of_sorted :
    ∀ {l : List WorkflowItem}, List.Sorted itemRel l → itemsSortedB l = true := by
  intro l h
  induction l with
  | nil => rfl
  | cons a t ih =>
    cases t with
    | nil => rfl
    | cons b t2 =>
      have h1 : itemRel a b := (List.sorted_cons.mp h).1 b (by simp)
      have h2 := ih h.of_cons
      show (itemLEb a b && itemsSortedB (b :: t2)) = true
      rw [show itemLEb a b = true from h1, h2]
      rfl

/-- C4: ordering invariant.  The claim as frozen is false: the Legacy
parser emits items in document order without sorting, so a legacy document
listing a phase-2 item before a phase-1 item parses unsorted. -/
theorem C4_counterexample :
    itemsSortedB (parseOldFormatItems
      (.map [("workflow_status",
         .seq [.map [("id", .str "b"), ("phase", .num 2), ("status", .str "s")],
               .map [("id", .str "a"), ("phase", .num 1), ("status", .str "s")]])]))
      = false ∧
    (buildWorkflowData
      (.map [("workflow_status",
         .seq [.map [("id", .str "b"), ("phase", .num 2), ("status", .str "s")],
               .map [("id", .str "a"), ("phase", .num 1), ("status", .str "s")]])])).map
      (fun d => itemsSortedB d.items) = Except.ok false :=
  ⟨rfl, rfl⟩

/-- C4 (amended): the Nested and Flat parsers always emit items sorted
ascending by phase and then by id, regardless of document order; the Legacy
parser preserves document order. -/
theorem C4_sorted_nested_flat :
    (∀ ws : List (String × YVal), itemsSortedB (parseNewFormatItems ws) = true) ∧
    (∀ fl : List (String × String), itemsSortedB (parseFlatFormatItems fl) = true) := by
  haveI : IsTotal WorkflowItem itemRel := ⟨itemRel_total⟩
  haveI : IsTrans WorkflowItem itemRel := ⟨fun a b c => itemRel_trans a b c⟩
  constructor
  · intro ws
    exact itemsSortedB_of_sorted (List.sorted_insertionSort itemRel _)
  · intro fl
    exact itemsSortedB_of_sorted (List.sorted_insertionSort itemRel _)

/-- C3: path containment.  isInsideWorkspace returns true exactly when the
normalized (resolved, symlink-resolved where the path exists, case-folded)
candidate equals the normalized root or extends it past a path separator;
the three spec examples hold on a file system where neither path exists. -/
theorem C3_path_containment :
    (∀ (fs : FSModel) (cwd f r : String) (nf nr : List Char),
        normalizeForCompare fs cwd f = .ok nf →
        normalizeForCompare fs cwd r = .ok nr →
        (isInsideWorkspace fs cwd f r = true ↔
          ((nr ++ ['/']).isPrefixOf nf = true ∨ nf = nr))) ∧
    isInsideWorkspace noFS "/" "/ws/a/b" "/ws" = true ∧
    isInsideWorkspace noFS "/" "/ws/../etc/passwd" "/ws" = false ∧
    isInsideWorkspace noFS "/" "/ws" "/ws" = true := by
  refine ⟨?_, by decide, by decide, by decide⟩
  intro fs cwd f r nf nr h1 h2
  simp only [normalizeForCompare, bind, Except.bind] at h1 h2
  simp only [isInsideWorkspace, isInsideWorkspaceBody, bind, Except.bind]
  cases hbf : fs.existsSync (pathResolve cwd f) <;>
    cases hbr : fs.existsSync (pathResolve cwd r) <;>
    rcases hrf : fs.realpathSync (pathResolve cwd f) with uf | vf <;>
    rcases hrr : fs.realpathSync (pathResolve cwd r) with ur | vr <;>
    simp_all [Bool.or_eq_true, beq_iff_eq]

/-- C3 witness: the characterization applied to the first spec example. -/
theorem C3_path_containment_witness :
    isInsideWorkspace noFS "/" "/ws/a/b" "/ws" = true :=
  (C3_path_containment.1 noFS "/" "/ws/a/b" "/ws"
      ("/ws/a/b".data) ("/ws".data) rfl rfl).mpr
    (Or.inl (by decide))

/-! ## Lemmas for the sprint two-pass parse -/

theorem matchEpicNum_eq {k n : String} (h : matchEpicNum k = some n) :
    k = "epic-" ++ n ∧ n.data ≠ [] ∧ n.data.all Char.isDigit = true := by
  unfold matchEpicNum at h
  split at h
  · next rest heq =>
    split at h
    · next hcond =>
      simp only [Option.some.injEq] at h
      subst h
      have hdata : k.data = ("epic-" ++ String.mk rest).data := by
        rw [String.data_append]
        exact heq
      exact ⟨congrArg String.mk hdata, hcond.1, hcond.2⟩
    · simp at h
  · simp at h

theorem matchEpicNum_append {n : String} (h1 : n.data ≠ [])
    (h2 : n.data.all Char.isDigit = true) :
    matchEpicNum ("epic-" ++ n) = some n := by
  unfold matchEpicNum
  have e : ("epic-" ++ n).data = 'e' :: 'p' :: 'i' :: 'c' :: '-' :: n.data := by
    rw [String.data_append]
    rfl
  rw [e]
  show (if n.data ≠ [] ∧ n.data.all Char.isDigit = true then
      some (String.mk n.data) else none) = some n
  rw [if_pos ⟨h1, h2⟩]

theorem matchStoryEpic_digits {k n : String} (h : matchStoryEpic k = some n) :
    n.data ≠ [] ∧ n.data.all Char.isDigit = true := by
  simp only [matchStoryEpic] at h
  split at h
  · split at h
    · next hne =>
      simp only [Option.some.injEq] at h
      subst h
      refine ⟨hne, ?_⟩
      rw [List.all_eq_true]
      intro c hc
      exact List.mem_takeWhile_imp hc
    · simp at h
  · simp at h

theorem lookupA_upsert (m : List (String × Epic)) (n : String) (e : Epic)
    (n2 : String) :
    lookupA (upsertEpic m n e) n2 = if n2 = n then some e else lookupA m n2 := by
  induction m with
  | nil =>
    by_cases h : n2 = n
    · simp [upsertEpic, lookupA, h]
    · simp [upsertEpic, lookupA, h, Ne.symm h]
  | cons p t ih =>
    rcases p with ⟨k, v⟩
    by_cases hk : k = n
    · subst hk
      by_cases h2 : n2 = k
      · simp [upsertEpic, lookupA, h2]
      · simp [upsertEpic, lookupA, h2, Ne.symm h2]
    · by_cases h2 : n2 = k
      · subst h2
        have hn : ¬ n2 = n := fun hh => hk (hh ▸ rfl)
        simp [upsertEpic, lookupA, hk, hn]
      · simp [upsertEpic, lookupA, hk, h2, Ne.symm h2, ih]

theorem lookupA_addStory (m : List (String × Epic)) (n : String) (s : Story)
    (n2 : String) :
    lookupA (addStory m n s) n2 =
      if n2 = n then
        (lookupA m n).map fun e => { e with stories := e.stories ++ [s] }
      else lookupA m n2 := by
  induction m with
  | nil =>
    by_cases h : n2 = n
    · simp [addStory, lookupA, h]
    · simp [addStory, lookupA, h]
  | cons p t ih =>
    rcases p with ⟨k, v⟩
    by_cases hk : k = n
    · subst hk
      by_cases h2 : n2 = k
      · simp [addStory, lookupA, h2]
      · simp [addStory, lookupA, h2, Ne.symm h2]
    · by_cases h2 : n2 = k
      · subst h2
        have hn : ¬ n2 = n := fun hh => hk (hh ▸ rfl)
        simp [addStory, lookupA, hk, hn]
      · simp [addStory, lookupA, hk, h2, Ne.symm h2, ih]

theorem step1_isSome {m : List (String × Epic)} {n : String}
    (h : (lookupA m n).isSome = true) (e : String × YVal) :
    (lookupA (sprintStep1 m e) n).isSome = true := by
  unfold sprintStep1
  split
  · next n2 heq =>
    rw [lookupA_upsert]
    split
    · rfl
    · exact h
  · exact h

theorem pass1_isSome :
    ∀ {entries : List (String × YVal)} {m0 : List (String × Epic)} {n : String},
    ((∃ kv ∈ entries, matchEpicNum kv.1 = some n) ∨ (lookupA m0 n).isSome = true) →
    (lookupA (entries.foldl sprintStep1 m0) n).isSome = true := by
  intro entries
  induction entries with
  | nil =>
    intro m0 n h
    rcases h with ⟨kv, hkv, -⟩ | h
    · simp at hkv
    · exact h
  | cons a t ih =>
    intro m0 n h
    rw [List.foldl_cons]
    rcases h with ⟨kv, hkv, hm⟩ | h
    · rcases List.mem_cons.mp hkv with hkv | hkv
      · subst hkv
        refine ih (Or.inr ?_)
        unfold sprintStep1
        rw [hm, lookupA_upsert, if_pos rfl]
        rfl
      · exact ih (Or.inl ⟨kv, hkv, hm⟩)
    · exact ih (Or.inr (step1_isSome h a))

theorem pass1_none :
    ∀ {entries : List (String × YVal)} {m0 : List (String × Epic)} {n : String},
    lookupA m0 n = none → (∀ kv ∈ entries, matchEpicNum kv.1 ≠ some n) →
    lookupA (entries.foldl sprintStep1 m0) n = none := by
  intro entries
  induction entries with
  | nil => intro m0 n h _; exact h
  | cons a t ih =>
    intro m0 n h hall
    rw [List.foldl_cons]
    refine ih ?_ fun kv hkv => hall kv (by simp [hkv])
    unfold sprintStep1
    split
    · next n2 heq =>
      rw [lookupA_upsert]
      split
      · next he => exact absurd (he ▸ heq) (hall a (by simp))
      · exact h
    · exact h

theorem pass1_shape :
    ∀ {entries : List (String × YVal)} {m0 : List (String × Epic)} {n : String}
    {e : Epic},
    (∀ n2 e2, lookupA m0 n2 = some e2 → e2.id = "epic-" ++ n2 ∧ e2.stories = []) →
    lookupA (entries.foldl sprintStep1 m0) n = some e →
    e.id = "epic-" ++ n ∧ e.stories = [] := by
  intro entries
  induction entries with
  | nil => intro m0 n e h0 h; exact h0 n e h
  | cons a t ih =>
    intro m0 n e h0 h
    rw [List.foldl_cons] at h
    refine ih ?_ h
    intro n2 e2 h2
    unfold sprintStep1 at h2
    split at h2
    · next n3 heq =>
      rw [lookupA_upsert] at h2
      split at h2
      · next he =>
        simp only [Option.some.injEq] at h2
        subst h2 he
        exact ⟨(matchEpicNum_eq heq).1, rfl⟩
      · exact h0 n2 e2 h2
    · exact h0 n2 e2 h2

theorem step2_lookup_none {m : List (String × Epic)} {n : String}
    (h : lookupA m n = none) (e : String × YVal) :
    lookupA (sprintStep2 m e) n = none := by
  unfold sprintStep2
  split
  · exact h
  · split
    · rw [lookupA_addStory]
      split
      · next he => subst he; rw [h]; rfl
      · exact h
    · exact h

theorem pass2_none :
    ∀ {es : List (String × YVal)} {m : List (String × Epic)} {n : String},
    lookupA m n = none → lookupA (es.foldl sprintStep2 m) n = none := by
  intro es
  induction es with
  | nil => intro m n h; exact h
  | cons a t ih =>
    intro m n h
    rw [List.foldl_cons]
    exact ih (step2_lookup_none h a)

theorem step2_isSome {m : List (String × Epic)} {n : String}
    (h : (lookupA m n).isSome = true) (e : String × YVal) :
    (lookupA (sprintStep2 m e) n).isSome = true := by
  unfold sprintStep2
  split
  · exact h
  · split
    · rw [lookupA_addStory]
      split
      · next he =>
        subst he
        rcases h0 : lookupA m n with _ | e0
        · rw [h0] at h; simp at h
        · rfl
      · exact h
    · exact h

theorem step2_id {m : List (String × Epic)} {n : String} {e : Epic}
    {a : String × YVal} (h : lookupA (sprintStep2 m a) n = some e) :
    ∃ e0, lookupA m n = some e0 ∧ e.id = e0.id := by
  unfold sprintStep2 at h
  split at h
  · exact ⟨e, h, rfl⟩
  · split at h
    · rw [lookupA_addStory] at h
      split at h
      · next he =>
        subst he
        rcases h0 : lookupA m n with _ | e0
        · rw [h0] at h; simp at h
        · rw [h0] at h
          simp at h
          exact ⟨e0, rfl, by rw [← h]⟩
      · exact ⟨e, h, rfl⟩
    · exact ⟨e, h, rfl⟩

theorem pass2_id :
    ∀ {es : List (String × YVal)} {m : List (String × Epic)} {n : String}
    {e : Epic},
    lookupA (es.foldl sprintStep2 m) n = some e →
    ∃ e0, lookupA m n = some e0 ∧ e.id = e0.id := by
  intro es
  induction es with
  | nil => intro m n e h; exact ⟨e, h, rfl⟩
  | cons a t ih =>
    intro m n e h
    rw [List.foldl_cons] at h
    obtain ⟨e1, h1, hid1⟩ := ih h
    obtain ⟨e0, h0, hid0⟩ := step2_id h1
    exact ⟨e0, h0, hid1.trans hid0⟩

theorem step2_storyIn_mono {m : List (String × Epic)} {n k : String}
    (h : ∃ e, lookupA m n = some e ∧ ∃ s ∈ e.stories, s.id = k)
    (a : String × YVal) :
    ∃ e, lookupA (sprintStep2 m a) n = some e ∧ ∃ s ∈ e.stories, s.id = k := by
  obtain ⟨e, he, s, hs, hid⟩ := h
  unfold sprintStep2
  split
  · exact ⟨e, he, s, hs, hid⟩
  · split
    · rw [lookupA_addStory]
      split
      · next heq =>
        subst heq
        rw [he]
        exact ⟨_, rfl, s, by simp [hs], hid⟩
      · exact ⟨e, he, s, hs, hid⟩
    · exact ⟨e, he, s, hs, hid⟩

theorem pass2_storyIn_mono :
    ∀ {es : List (String × YVal)} {m : List (String × Epic)} {n k : String},
    (∃ e, lookupA m n = some e ∧ ∃ s ∈ e.stories, s.id = k) →
    ∃ e, lookupA (es.foldl sprintStep2 m) n = some e ∧ ∃ s ∈ e.stories, s.id = k := by
  intro es
  induction es with
  | nil => intro m n k h; exact h
  | cons a t ih =>
    intro m n k h
    rw [List.foldl_cons]
    exact ih (step2_storyIn_mono h a)

theorem pass2_adds :
    ∀ {es : List (String × YVal)} {m : List (String × Epic)} {k : String}
    {v : YVal} {n : String},
    (k, v) ∈ es → matchEpicNum k = none → containsRetro k = false →
    matchStoryEpic k = some n → (lookupA m n).isSome = true →
    ∃ e, lookupA (es.foldl sprintStep2 m) n = some e ∧ ∃ s ∈ e.stories, s.id = k := by
  intro es
  induction es with
  | nil => intro m k v n h; simp at h
  | cons a t ih =>
    intro m k v n hmem hne hretro hstory hsome
    rw [List.foldl_cons]
    rcases List.mem_cons.mp hmem with hmem | hmem
    · have hadd : ∃ e, lookupA (sprintStep2 m a) n = some e ∧
          ∃ s ∈ e.stories, s.id = k := by
        rw [← hmem]
        unfold sprintStep2
        rw [show ((matchEpicNum (k, v).1).isSome || containsRetro (k, v).1) = false
            from by simp [hne, hretro]]
        simp only [Bool.false_eq_true, if_false]
        rw [show matchStoryEpic (k, v).1 = some n from hstory]
        obtain ⟨e0, he0⟩ := Option.isSome_iff_exists.mp hsome
        rw [lookupA_addStory, if_pos rfl, he0]
        exact ⟨_, rfl, ⟨k, v, "epic-" ++ n⟩, by simp, rfl⟩
      exact pass2_storyIn_mono hadd
    · exact ih hmem hne hretro hstory (step2_isSome hsome a)

theorem step2_storyOK {m : List (String × Epic)}
    (h : ∀ n e, lookupA m n = some e → ∀ s ∈ e.stories,
      matchStoryEpic s.id = some n) (a : String × YVal) :
    ∀ n e, lookupA (sprintStep2 m a) n = some e → ∀ s ∈ e.stories,
      matchStoryEpic s.id = some n := by
  intro n e he s hs
  unfold sprintStep2 at he
  split at he
  · exact h n e he s hs
  · split at he
    · next n2 heq =>
      rw [lookupA_addStory] at he
      split at he
      · next hn =>
        subst hn
        rcases h0 : lookupA m n with _ | e0
        · rw [h0] at he; simp at he
        · rw [h0] at he
          simp at he
          rw [← he] at hs
          simp only at hs
          rcases List.mem_append.mp hs with hs | hs
          · exact h n e0 h0 s hs
          · simp only [List.mem_singleton] at hs
            subst hs
            exact heq
      · exact h n e he s hs
    · exact h n e he s hs

theorem pass2_storyOK :
    ∀ {es : List (String × YVal)} {m : List (String × Epic)},
    (∀ n e, lookupA m n = some e → ∀ s ∈ e.stories,
      matchStoryEpic s.id = some n) →
    ∀ n e, lookupA (es.foldl sprintStep2 m) n = some e → ∀ s ∈ e.stories,
      matchStoryEpic s.id = some n := by
  intro es
  induction es with
  | nil => intro m h; exact h
  | cons a t ih =>
    intro m h
    rw [List.foldl_cons]
    exact ih (step2_storyOK h a)

theorem addStory_keys (m : List (String × Epic)) (n : String) (s : Story) :
    (addStory m n s).map Prod.fst = m.map Prod.fst := by
  induction m with
  | nil => rfl
  | cons p t ih =>
    rcases p with ⟨k, v⟩
    by_cases hk : k = n <;> simp [addStory, hk, ih]

theorem upsert_keys_mem (m : List (String × Epic)) (n : String) (e : Epic)
    (k2 : String) :
    k2 ∈ (upsertEpic m n e).map Prod.fst ↔ (k2 ∈ m.map Prod.fst ∨ k2 = n) := by
  induction m with
  | nil => simp [upsertEpic]
  | cons p t ih =>
    rcases p with ⟨k, v⟩
    by_cases hk : k = n
    · subst hk
      by_cases h2 : k2 = k
      · simp [upsertEpic, h2]
      · simp [upsertEpic, h2]
    · simp [upsertEpic, hk, ih]
      tauto

theorem upsert_nodup {m : List (String × Epic)} {n : String} {e : Epic}
    (h : (m.map Prod.fst).Nodup) : ((upsertEpic m n e).map Prod.fst).Nodup := by
  induction m with
  | nil => simp [upsertEpic]
  | cons p t ih =>
    rcases p with ⟨k, v⟩
    simp only [List.map_cons, List.nodup_cons] at h
    by_cases hk : k = n
    · subst hk
      simp only [upsertEpic, if_true, List.map_cons, List.nodup_cons]
      exact h
    · simp only [upsertEpic, if_neg hk, List.map_cons, List.nodup_cons]
      refine ⟨?_, ih h.2⟩
      rw [upsert_keys_mem]
      rintro (hmem | hmem)
      · exact h.1 hmem
      · exact hk hmem

theorem step1_nodup {m : List (String × Epic)}
    (h : (m.map Prod.fst).Nodup) (a : String × YVal) :
    ((sprintStep1 m a).map Prod.fst).Nodup := by
  unfold sprintStep1
  split
  · exact upsert_nodup h
  · exact h

theorem pass1_nodup :
    ∀ {entries : List (String × YVal)} {m0 : List (String × Epic)},
    (m0.map Prod.fst).Nodup → ((entries.foldl sprintStep1 m0).map Prod.fst).Nodup := by
  intro entries
  induction entries with
  | nil => intro m0 h; exact h
  | cons a t ih =>
    intro m0 h
    rw [List.foldl_cons]
    exact ih (step1_nodup h a)

theorem step2_keys (m : List (String × Epic)) (a : String × YVal) :
    (sprintStep2 m a).map Prod.fst = m.map Prod.fst := by
  unfold sprintStep2
  split
  · rfl
  · split
    · rw [addStory_keys]
    · rfl

theorem pass2_keys :
    ∀ {es : List (String × YVal)} {m : List (String × Epic)},
    (es.foldl sprintStep2 m).map Prod.fst = m.map Prod.fst := by
  intro es
  induction es with
  | nil => intro m; rfl
  | cons a t ih =>
    intro m
    rw [List.foldl_cons, ih, step2_keys]

theorem lookupA_of_mem :
    ∀ {m : List (String × Epic)} {n : String} {e : Epic},
    (m.map Prod.fst).Nodup → (n, e) ∈ m → lookupA m n = some e := by
  intro m
  induction m with
  | nil => intro n e _ h; simp at h
  | cons p t ih =>
    intro n e hnd hmem
    rcases p with ⟨k, v⟩
    simp only [List.map_cons, List.nodup_cons] at hnd
    rcases List.mem_cons.mp hmem with hmem | hmem
    · injection hmem with h1 h2
      subst h1 h2
      simp [lookupA]
    · have hk : ¬ k = n := by
        intro hk
        subst hk
        exact hnd.1 (List.mem_map.mpr ⟨(k, e), hmem, rfl⟩)
      simp only [lookupA, if_neg hk]
      exact ih hnd.2 hmem

theorem lookupA_mem_values :
    ∀ {m : List (String × Epic)} {n : String} {e : Epic},
    lookupA m n = some e → e ∈ m.map Prod.snd := by
  intro m
  induction m with
  | nil => intro n e h; simp [lookupA] at h
  | cons p t ih =>
    intro n e h
    rcases p with ⟨k, v⟩
    simp only [lookupA] at h
    split at h
    · simp only [Option.some.injEq] at h
      subst h
      simp
    · simp only [List.map_cons, List.mem_cons]
      exact Or.inr (ih h)

/-- C7: orphan-story policy.  Every non-retrospective story key whose
numeric prefix has a matching epic key becomes a story of that epic; a
story key with no matching epic appears nowhere in the parse (silently
dropped); and the spec scenario parses to one epic with exactly the two
stories. -/
theorem C7_orphan_story_policy :
    (∀ (entries : List (String × YVal)) (k : String) (v : YVal) (N : String),
       (k, v) ∈ entries → matchStoryEpic k = some N → matchEpicNum k = none →
       containsRetro k = false →
       ((∃ w, ("epic-" ++ N, w) ∈ entries) →
          ∃ e ∈ parseSprintDev entries, e.id = "epic-" ++ N ∧
            ∃ s ∈ e.stories, s.id = k) ∧
       ((∀ w, ("epic-" ++ N, w) ∉ entries) →
          ∀ e ∈ parseSprintDev entries, ∀ s ∈ e.stories, s.id ≠ k)) ∧
    (parseSprintDev [("epic-1", .str "in-progress"), ("1-1-login", .str "done"),
        ("1-2-signup", .str "backlog"), ("99-orphan", .str "backlog")]).map
      (fun e => (e.id, e.name, e.stories.map Story.id))
      = [("epic-1", "Epic 1", ["1-1-login", "1-2-signup"])] := by
  refine ⟨?_, rfl⟩
  intro entries k v N hmem hstory hnre hretro
  obtain ⟨hNne, hNdig⟩ := matchStoryEpic_digits hstory
  have base0 : ∀ n2 e2, lookupA ([] : List (String × Epic)) n2 = some e2 →
      e2.id = "epic-" ++ n2 ∧ e2.stories = [] := by
    intro n2 e2 h2
    simp [lookupA] at h2
  constructor
  · rintro ⟨w, hw⟩
    have hepic : matchEpicNum ("epic-" ++ N) = some N :=
      matchEpicNum_append hNne hNdig
    have hm1 : (lookupA (sprintPass1 entries) N).isSome = true := by
      unfold sprintPass1
      exact pass1_isSome (Or.inl ⟨("epic-" ++ N, w), hw, hepic⟩)
    obtain ⟨e, he, s, hs, hsid⟩ := pass2_adds hmem hnre hretro hstory hm1
    obtain ⟨e0, he0, hid⟩ := pass2_id he
    have hshape : e0.id = "epic-" ++ N ∧ e0.stories = [] := by
      unfold sprintPass1 at he0
      exact pass1_shape base0 he0
    refine ⟨e, ?_, ?_, s, hs, hsid⟩
    · unfold parseSprintDev
      have hval : e ∈ (entries.foldl sprintStep2 (sprintPass1 entries)).map
          Prod.snd := lookupA_mem_values he
      exact ((List.perm_insertionSort epicRel _).mem_iff).mpr hval
    · rw [hid, hshape.1]
  · intro hno e he s hs hsid
    unfold parseSprintDev at he
    have hval : e ∈ (entries.foldl sprintStep2 (sprintPass1 entries)).map
        Prod.snd := ((List.perm_insertionSort epicRel _).mem_iff).mp he
    have hnd : ((entries.foldl sprintStep2 (sprintPass1 entries)).map
        Prod.fst).Nodup := by
      rw [pass2_keys]
      unfold sprintPass1
      exact pass1_nodup (by simp)
    obtain ⟨p, hp, hpe⟩ := List.mem_map.mp hval
    rcases p with ⟨n2, e2⟩
    simp only at hpe
    subst hpe
    have hlk : lookupA (entries.foldl sprintStep2 (sprintPass1 entries)) n2
        = some e2 := lookupA_of_mem hnd hp
    have hOK : ∀ n3 e3, lookupA (sprintPass1 entries) n3 = some e3 →
        ∀ s3 ∈ e3.stories, matchStoryEpic s3.id = some n3 := by
      intro n3 e3 hle s3 hs3
      unfold sprintPass1 at hle
      have := (pass1_shape base0 hle).2
      rw [this] at hs3
      simp at hs3
    have hsm : matchStoryEpic s.id = some n2 := pass2_storyOK hOK n2 e2 hlk s hs
    rw [hsid, hstory] at hsm
    injection hsm with hn2
    subst hn2
    have h1none : lookupA (sprintPass1 entries) N = none := by
      unfold sprintPass1
      refine pass1_none rfl ?_
      intro kv hkv hmatch
      obtain ⟨hkeq, -, -⟩ := matchEpicNum_eq hmatch
      refine hno kv.2 ?_
      have hkv2 : ("epic-" ++ N, kv.2) = kv := by rw [← hkeq]
      rw [hkv2]
      exact hkv
    have hall : lookupA (entries.foldl sprintStep2 (sprintPass1 entries)) N
        = none := pass2_none h1none
    rw [hall] at hlk
    simp at hlk

/-- C7 witness: the membership direction applied to the spec scenario. -/
theorem C7_orphan_story_policy_witness :
    ∃ e ∈ parseSprintDev [("epic-1", YVal.str "in-progress"),
        ("1-1-login", YVal.str "done"), ("1-2-signup", YVal.str "backlog"),
        ("99-orphan", YVal.str "backlog")],
      e.id = "epic-" ++ "1" ∧ ∃ s ∈ e.stories, s.id = "1-1-login" :=
  ((C7_orphan_story_policy.1 _ "1-1-login" (YVal.str "done") "1"
      (by simp) (by decide) (by decide) (by decide)).1)
    ⟨YVal.str "in-progress", by simp⟩

end Clique
